import Mathlib

/-!
Verification of `src/calibre/ebooks/docx/writer/container.py`, the DOCX
package assembler: relationship registry, content-type manifest, metadata
translation and archive writing.  Python dictionaries are modelled as
insertion-ordered association lists; all properties proved about them are
invariant under permutation of the enumeration order, except where a claim
is explicitly about enumeration order (which, for a Python 2 dict, is
hash-table order and is not modelled here).
-/

namespace Docx

/-! ### Decimal rendering (`'rId%d' % n` uses `Nat.repr`); we prove it injective. -/

/-- Fuel-free version of `Nat.toDigitsCore` for base 10: most significant digit first. -/
def toDigitsRec (n : Nat) : List Char :=
  if n < 10 then [Nat.digitChar n]
  else toDigitsRec (n / 10) ++ [Nat.digitChar (n % 10)]
decreasing_by exact Nat.div_lt_self (by omega) (by omega)

theorem toDigitsCore_eq_toDigitsRec :
    ∀ (f n : Nat) (ds : List Char), n < f →
      Nat.toDigitsCore 10 f n ds = toDigitsRec n ++ ds := by
  intro f
  induction f with
  | zero => intro n ds h; omega
  | succ f ih =>
    intro n ds h
    show (if n / 10 = 0 then Nat.digitChar (n % 10) :: ds
          else Nat.toDigitsCore 10 f (n / 10) (Nat.digitChar (n % 10) :: ds))
        = toDigitsRec n ++ ds
    by_cases h10 : n < 10
    · have hdiv : n / 10 = 0 := Nat.div_eq_of_lt h10
      have hmod : n % 10 = n := Nat.mod_eq_of_lt h10
      simp [hdiv, hmod, toDigitsRec, h10]
    · have hdiv : n / 10 ≠ 0 := by
        intro hc
        exact h10 (by omega)
      have hlt : n / 10 < f := by
        have h1 : n / 10 < n := Nat.div_lt_self (by omega) (by omega)
        omega
      rw [if_neg hdiv, ih (n / 10) _ hlt]
      conv_rhs => rw [toDigitsRec, if_neg h10]
      rw [List.append_assoc, List.singleton_append]

theorem repr_eq_toDigitsRec (n : Nat) : Nat.repr n = (toDigitsRec n).asString := by
  show (Nat.toDigitsCore 10 (n + 1) n []).asString = (toDigitsRec n).asString
  rw [toDigitsCore_eq_toDigitsRec (n + 1) n [] (Nat.lt_succ_self n), List.append_nil]

/-- Decimal parser, left inverse of `toDigitsRec`. -/
def parseDigits (l : List Char) : Nat :=
  l.foldl (fun a c => 10 * a + (c.toNat - 48)) 0

theorem digitChar_val : ∀ d : Nat, d < 10 → (Nat.digitChar d).toNat - 48 = d := by decide

theorem parseDigits_toDigitsRec (n : Nat) : parseDigits (toDigitsRec n) = n := by
  induction n using Nat.strong_induction_on with
  | _ n ih =>
    by_cases h : n < 10
    · rw [toDigitsRec, if_pos h]
      show 10 * 0 + ((Nat.digitChar n).toNat - 48) = n
      rw [digitChar_val n h]; omega
    · rw [toDigitsRec, if_neg h]
      have hlt : n / 10 < n := Nat.div_lt_self (by omega) (by omega)
      show (toDigitsRec (n / 10) ++ [Nat.digitChar (n % 10)]).foldl
          (fun a c => 10 * a + (c.toNat - 48)) 0 = n
      rw [List.foldl_append]
      show 10 * parseDigits (toDigitsRec (n / 10)) + ((Nat.digitChar (n % 10)).toNat - 48) = n
      rw [ih (n / 10) hlt, digitChar_val (n % 10) (Nat.mod_lt n (by omega))]
      omega

theorem nat_repr_injective : ∀ m n : Nat, Nat.repr m = Nat.repr n → m = n := by
  intro m n h
  rw [repr_eq_toDigitsRec, repr_eq_toDigitsRec] at h
  have hd : toDigitsRec m = toDigitsRec n := congrArg String.data h
  calc m = parseDigits (toDigitsRec m) := (parseDigits_toDigitsRec m).symm
    _ = parseDigits (toDigitsRec n) := by rw [hd]
    _ = n := parseDigits_toDigitsRec n

/-! ### Namespace and relationship-type constants
(`calibre.ebooks.docx.names`, imported by the module but outside `src/`;
the values are the standard OOXML URIs the claims refer to). -/

/-- Modelled from the spec: the namespace table of the external names module;
only the keys used by this module are given. -/
def namespaces : String → String
  | "dc" => "http://purl.org/dc/elements/1.1/"
  | "cp" => "http://schemas.openxmlformats.org/package/2006/metadata/core-properties"
  | "dcterms" => "http://purl.org/dc/terms/"
  | "xsi" => "http://www.w3.org/2001/XMLSchema-instance"
  | "pr" => "http://schemas.openxmlformats.org/package/2006/relationships"
  | "ct" => "http://schemas.openxmlformats.org/package/2006/content-types"
  | "ep" => "http://schemas.openxmlformats.org/officeDocument/2006/extended-properties"
  | "w" => "http://schemas.openxmlformats.org/wordprocessingml/2006/main"
  | _ => ""

/-- Modelled from the spec: relationship-type URI for the style sheet. -/
def STYLES : String :=
  "http://schemas.openxmlformats.org/officeDocument/2006/relationships/styles"

/-- Modelled from the spec: relationship-type URI for web settings. -/
def WEB_SETTINGS : String :=
  "http://schemas.openxmlformats.org/officeDocument/2006/relationships/webSettings"

/-- Modelled from the spec: relationship-type URI for the font table. -/
def FONTS : String :=
  "http://schemas.openxmlformats.org/officeDocument/2006/relationships/fontTable"

/-- Modelled from the spec: relationship-type URI for embedded images. -/
def IMAGES : String :=
  "http://schemas.openxmlformats.org/officeDocument/2006/relationships/image"

/-- Qualified tag `[x7b]ns[x7d]name` as built by `'{%s}%s' % (namespaces[ns], name)`. -/
def qn (ns name : String) : String := "\x7b" ++ namespaces ns ++ "\x7d" ++ name

/-! ### `DocumentRelationships` -/

/-- A relationship key `(target, rtype, target_mode)`, the dict key of `rmap`. -/
abbrev RelKey := String × String × Option String

/-- The contents of `self.rmap`, as an association list in insertion order. -/
abbrev Registry := List (RelKey × String)

/-- The identifier string `'rId%d' % n`. -/
def rIdStr (n : Nat) : String := "rId" ++ Nat.repr n

theorem rIdStr_injective : ∀ m n : Nat, rIdStr m = rIdStr n → m = n := by
  intro m n h
  have hd : ("rId".data ++ (Nat.repr m).data) = ("rId".data ++ (Nat.repr n).data) :=
    congrArg String.data h
  have hr : (Nat.repr m).data = (Nat.repr n).data := List.append_cancel_left hd
  exact nat_repr_injective m n (String.ext hr)

/-- Dictionary lookup `self.rmap.get(key)`. -/
def lookupKey : Registry → RelKey → Option String
  | [], _ => none
  | (k', v) :: rest, k => if k' = k then some v else lookupKey rest k

/-- `DocumentRelationships.get_relationship_id`. -/
def get_relationship_id (r : Registry) (k : RelKey) : Option String := lookupKey r k

/-- `DocumentRelationships.add_relationship`: returns the identifier and the
updated registry (`self.rmap` after the call). -/
def add_relationship (r : Registry) (k : RelKey) : String × Registry :=
  match get_relationship_id r k with
  | some ans => (ans, r)
  | none => (rIdStr (r.length + 1), r ++ [(k, rIdStr (r.length + 1))])

/-- `DocumentRelationships.add_image`. -/
def add_image (r : Registry) (target : String) : String × Registry :=
  add_relationship r (target, IMAGES, none)

/-- A `<Relationship>` element of the serialized registry. -/
structure RelElem where
  rid : String
  rtype : String
  target : String
  mode : Option String
deriving DecidableEq

/-- `DocumentRelationships.serialize`, as the list of emitted `Relationship`
elements.  The Python 2 dict enumerates its items in hash-table order; this
model lists them in insertion order, and no theorem below depends on the
order, only on the multiset of emitted elements. -/
def serialize (r : Registry) : List RelElem :=
  r.map (fun p => ⟨p.2, p.1.2.1, p.1.1, p.1.2.2⟩)

/-- The key of an emitted `Relationship` element. -/
def keyOf (e : RelElem) : RelKey := (e.target, e.rtype, e.mode)

/-- The seed dict `\x7bSTYLES: 'styles.xml', WEB_SETTINGS: 'webSettings.xml',
FONTS: 'fontTable.xml'\x7d` of `DocumentRelationships.__init__`, as
(type, target) pairs in source order.  A Python 2 dict literal enumerates in
hash order, so theorems about the seeding quantify over all permutations. -/
def builtinPairs : List (String × String) :=
  [(STYLES, "styles.xml"), (WEB_SETTINGS, "webSettings.xml"), (FONTS, "fontTable.xml")]

/-- The relationship keys of the three built-in seed relationships. -/
def builtinKeys : List RelKey := builtinPairs.map (fun p => (p.2, p.1, none))

/-- Register a sequence of keys with `add_relationship`, left to right. -/
def applyAdds (r : Registry) (ks : List RelKey) : Registry :=
  ks.foldl (fun r k => (add_relationship r k).2) r

/-- `DocumentRelationships.__init__`: seed the fresh registry by calling
`add_relationship(target, typ)` for each (typ, target) pair of `seed`. -/
def initWith (seed : List (String × String)) : Registry :=
  applyAdds [] (seed.map (fun p => (p.2, p.1, none)))

/-! ### Registry invariant -/

/-- Invariant of `rmap`: keys are distinct (it is a dict) and the value at
insertion position `i` is `rId(i+1)`. -/
def RegInv (r : Registry) : Prop :=
  (r.map Prod.fst).Nodup ∧
    r.map Prod.snd = (List.range r.length).map (fun i => rIdStr (i + 1))

theorem lookupKey_eq_none (r : Registry) (k : RelKey) :
    lookupKey r k = none ↔ k ∉ r.map Prod.fst := by
  induction r with
  | nil => simp [lookupKey]
  | cons p rest ih =>
    by_cases h : p.1 = k
    · simp [lookupKey, h]
    · simp [lookupKey, h, ih, Ne.symm h]

theorem lookupKey_mem (r : Registry) (k : RelKey) (v : String)
    (h : lookupKey r k = some v) : (k, v) ∈ r := by
  induction r with
  | nil => simp [lookupKey] at h
  | cons p rest ih =>
    obtain ⟨pk, pv⟩ := p
    by_cases hp : pk = k
    · simp only [lookupKey, if_pos hp, Option.some.injEq] at h
      subst hp; subst h
      exact List.mem_cons_self _ _
    · simp only [lookupKey, if_neg hp] at h
      exact List.mem_cons_of_mem _ (ih h)

theorem regInv_add (r : Registry) (k : RelKey) (h : RegInv r) :
    RegInv (add_relationship r k).2 := by
  rcases h with ⟨hk, hv⟩
  unfold add_relationship
  cases hl : get_relationship_id r k with
  | some v => exact ⟨hk, hv⟩
  | none =>
    constructor
    · rw [List.map_append]
      apply List.Nodup.append hk (by simp)
      simp only [List.map_cons, List.map_nil, List.disjoint_singleton]
      exact (lookupKey_eq_none r k).1 hl
    · rw [List.map_append, List.length_append, hv]
      simp [List.range_succ]

theorem regInv_applyAdds (r : Registry) (ks : List RelKey) (h : RegInv r) :
    RegInv (applyAdds r ks) := by
  induction ks generalizing r with
  | nil => exact h
  | cons k ks ih => exact ih _ (regInv_add r k h)

theorem regInv_nil : RegInv [] := by constructor <;> simp

theorem regInv_initWith (seed : List (String × String)) : RegInv (initWith seed) :=
  regInv_applyAdds _ _ regInv_nil

/-- Under the invariant, values are pairwise distinct. -/
theorem regInv_values_nodup (r : Registry) (h : RegInv r) :
    (r.map Prod.snd).Nodup := by
  rw [h.2]
  apply List.Nodup.map _ (List.nodup_range _)
  intro a b hab
  have := rIdStr_injective (a + 1) (b + 1) hab
  omega

/-- Distinct keys never share an identifier. -/
theorem regInv_key_unique (r : Registry) (h : RegInv r) (k1 k2 : RelKey) (v : String)
    (h1 : (k1, v) ∈ r) (h2 : (k2, v) ∈ r) : k1 = k2 := by
  have hsnd := regInv_values_nodup r h
  have := List.inj_on_of_nodup_map hsnd h1 h2 rfl
  exact congrArg Prod.fst this

theorem applyAdds_cons (r : Registry) (k : RelKey) (ks : List RelKey) :
    applyAdds r (k :: ks) = applyAdds (add_relationship r k).2 ks := rfl

theorem lookupKey_append_left_none (r s : Registry) (k : RelKey)
    (h : lookupKey r k = none) : lookupKey (r ++ s) k = lookupKey s k := by
  induction r with
  | nil => simp
  | cons p rest ih =>
    obtain ⟨pk, pv⟩ := p
    by_cases hp : pk = k
    · simp [lookupKey, hp] at h
    · rw [List.cons_append, lookupKey, if_neg hp]
      rw [lookupKey, if_neg hp] at h
      exact ih h

theorem add_relationship_twice (r : Registry) (k : RelKey) :
    (add_relationship (add_relationship r k).2 k).1 = (add_relationship r k).1 := by
  cases hl : get_relationship_id r k with
  | some v => simp [add_relationship, hl]
  | none =>
    have h2 : get_relationship_id (r ++ [(k, rIdStr (r.length + 1))]) k
        = some (rIdStr (r.length + 1)) := by
      show lookupKey _ _ = _
      rw [lookupKey_append_left_none _ _ _ hl]
      simp [lookupKey]
    simp [add_relationship, hl, h2]

theorem add_relationship_prefix (r : Registry) (k : RelKey) :
    ∃ t, (add_relationship r k).2 = r ++ t := by
  unfold add_relationship
  cases get_relationship_id r k with
  | some v => exact ⟨[], (List.append_nil r).symm⟩
  | none => exact ⟨[(k, rIdStr (r.length + 1))], rfl⟩

theorem applyAdds_prefix (ks : List RelKey) (r : Registry) :
    ∃ t, applyAdds r ks = r ++ t := by
  induction ks generalizing r with
  | nil => exact ⟨[], (List.append_nil r).symm⟩
  | cons k ks ih =>
    obtain ⟨t1, h1⟩ := add_relationship_prefix r k
    obtain ⟨t2, h2⟩ := ih (add_relationship r k).2
    exact ⟨t1 ++ t2, by rw [applyAdds_cons, h2, h1, List.append_assoc]⟩

theorem applyAdds_keys : ∀ (ks : List RelKey) (r : Registry),
    (r.map Prod.fst ++ ks).Nodup →
    (applyAdds r ks).map Prod.fst = r.map Prod.fst ++ ks := by
  intro ks
  induction ks with
  | nil => intro r _; simp [applyAdds]
  | cons k ks ih =>
    intro r h
    have h' := h
    rw [List.nodup_append] at h'
    have hk : k ∉ r.map Prod.fst := fun hc => h'.2.2 hc (List.mem_cons_self _ _)
    have hnone : get_relationship_id r k = none := (lookupKey_eq_none r k).2 hk
    have hadd : (add_relationship r k).2 = r ++ [(k, rIdStr (r.length + 1))] := by
      simp [add_relationship, hnone]
    rw [applyAdds_cons, hadd, ih (r ++ [(k, rIdStr (r.length + 1))]) (by simpa using h)]
    simp

theorem initWith_spec (seed : List (String × String)) (hs : seed.Perm builtinPairs) :
    (initWith seed).map Prod.fst = seed.map (fun p => (p.2, p.1, none))
    ∧ (initWith seed).map Prod.snd = [rIdStr 1, rIdStr 2, rIdStr 3]
    ∧ (initWith seed).length = 3 := by
  have hperm : (seed.map (fun p => ((p.2, p.1, none) : RelKey))).Perm builtinKeys :=
    hs.map _
  have hnodup : (seed.map (fun p => ((p.2, p.1, none) : RelKey))).Nodup :=
    hperm.nodup_iff.2 (by decide)
  have hkeys := applyAdds_keys (seed.map (fun p => (p.2, p.1, none))) [] (by simpa using hnodup)
  have hkeys' : (initWith seed).map Prod.fst = seed.map (fun p => (p.2, p.1, none)) := by
    simpa [initWith] using hkeys
  have hlen : (initWith seed).length = 3 := by
    have h1 := congrArg List.length hkeys'
    rw [List.length_map, List.length_map] at h1
    rw [h1, hs.length_eq]
    rfl
  refine ⟨hkeys', ?_, hlen⟩
  have hv := (regInv_initWith seed).2
  rw [hlen] at hv
  rw [hv]
  decide

theorem countP_key (r : Registry) (hk : (r.map Prod.fst).Nodup) (kq : RelKey) :
    r.countP (fun p => decide (p.1 = kq)) = if kq ∈ r.map Prod.fst then 1 else 0 := by
  induction r with
  | nil => simp
  | cons p rest ih =>
    obtain ⟨pk, pv⟩ := p
    simp only [List.map_cons, List.nodup_cons] at hk
    by_cases h : pk = kq
    · subst h
      have h0 : rest.countP (fun p => decide (p.1 = pk)) = 0 := by
        rw [ih hk.2, if_neg hk.1]
      simp [List.countP_cons, h0]
    · rw [List.countP_cons]
      simp only [decide_eq_true_eq, h, if_false]
      rw [ih hk.2]
      have hmm : (kq ∈ pk :: List.map Prod.fst rest) ↔ kq ∈ List.map Prod.fst rest := by
        simp [List.mem_cons, Ne.symm h]
      simp only [List.map_cons, Nat.add_zero]
      exact (if_congr hmm rfl rfl).symm

theorem serialize_countP (r : Registry) (kq : RelKey) :
    (serialize r).countP (fun e => decide (keyOf e = kq))
      = r.countP (fun p => decide (p.1 = kq)) := by
  unfold serialize
  rw [List.countP_map]
  rfl

/-- C1.  For every key and every sequence of calls on one
`DocumentRelationships` registry: `add_relationship` called twice with the
same key returns the identical identifier both times, no two distinct keys
share an identifier, and `serialize` emits exactly one `Relationship` element
per registered key (and none for unregistered keys). -/
theorem add_relationship_idempotent_unique (seed : List (String × String))
    (hs : seed.Perm builtinPairs) (ks : List RelKey) (k k1 k2 kq : RelKey) (v : String)
    (hne : k1 ≠ k2)
    (hv : get_relationship_id (applyAdds (initWith seed) ks) k1 = some v) :
    (add_relationship (add_relationship (applyAdds (initWith seed) ks) k).2 k).1
        = (add_relationship (applyAdds (initWith seed) ks) k).1
    ∧ get_relationship_id (applyAdds (initWith seed) ks) k2 ≠ some v
    ∧ (serialize (applyAdds (initWith seed) ks)).countP (fun e => decide (keyOf e = kq))
        = if kq ∈ (applyAdds (initWith seed) ks).map Prod.fst then 1 else 0 := by
  have hinv : RegInv (applyAdds (initWith seed) ks) :=
    regInv_applyAdds _ _ (regInv_initWith seed)
  refine ⟨add_relationship_twice _ _, ?_, ?_⟩
  · intro hc
    exact hne (regInv_key_unique _ hinv k1 k2 v (lookupKey_mem _ _ _ hv)
      (lookupKey_mem _ _ _ hc))
  · rw [serialize_countP, countP_key _ hinv.1]

/-- Witness for C1 at a concrete registry: the three seeded relationships plus
one image; `styles.xml` holds `rId1` and the image key does not. -/
theorem add_relationship_idempotent_unique_witness :
    (add_relationship (add_relationship
          (applyAdds (initWith builtinPairs) [("media/image1.png", IMAGES, none)])
          ("media/image1.png", IMAGES, none)).2
        ("media/image1.png", IMAGES, none)).1
      = (add_relationship
          (applyAdds (initWith builtinPairs) [("media/image1.png", IMAGES, none)])
          ("media/image1.png", IMAGES, none)).1
    ∧ get_relationship_id (applyAdds (initWith builtinPairs)
          [("media/image1.png", IMAGES, none)])
        ("media/image1.png", IMAGES, none) ≠ some "rId1"
    ∧ (serialize (applyAdds (initWith builtinPairs) [("media/image1.png", IMAGES, none)])).countP
          (fun e => decide (keyOf e = (("media/image1.png", IMAGES, none) : RelKey)))
        = if (("media/image1.png", IMAGES, none) : RelKey)
              ∈ (applyAdds (initWith builtinPairs)
                  [("media/image1.png", IMAGES, none)]).map Prod.fst
          then 1 else 0 :=
  add_relationship_idempotent_unique builtinPairs (List.Perm.refl _)
    [("media/image1.png", IMAGES, none)] ("media/image1.png", IMAGES, none)
    ("styles.xml", STYLES, none) ("media/image1.png", IMAGES, none)
    ("media/image1.png", IMAGES, none) "rId1" (by decide) (by decide)

/-- C7.  A freshly constructed registry assigns `rId1`–`rId3` to the three
built-in relationships (in the hash-determined enumeration order of the seed
dict, quantified here as any permutation), and every key later registered by
a caller receives `rId4` or higher. -/
theorem seeded_ordering (seed : List (String × String)) (hs : seed.Perm builtinPairs)
    (ks : List RelKey) (k : RelKey) (v : String)
    (hk : k ∉ builtinKeys)
    (hv : get_relationship_id (applyAdds (initWith seed) ks) k = some v) :
    (initWith seed).map Prod.snd = [rIdStr 1, rIdStr 2, rIdStr 3]
    ∧ ((initWith seed).map Prod.fst).Perm builtinKeys
    ∧ ∃ n, 4 ≤ n ∧ v = rIdStr n := by
  obtain ⟨hkeys, hvals, hlen⟩ := initWith_spec seed hs
  have hperm : ((initWith seed).map Prod.fst).Perm builtinKeys := by
    rw [hkeys]; exact hs.map _
  refine ⟨hvals, hperm, ?_⟩
  obtain ⟨t, ht⟩ := applyAdds_prefix ks (initWith seed)
  have hmem : (k, v) ∈ applyAdds (initWith seed) ks := lookupKey_mem _ _ _ hv
  rw [ht] at hmem
  have hkinit : k ∉ (initWith seed).map Prod.fst := fun hc => hk (hperm.mem_iff.1 hc)
  have hmemt : (k, v) ∈ t := by
    rcases List.mem_append.1 hmem with h | h
    · exact absurd (List.mem_map_of_mem Prod.fst h) hkinit
    · exact h
  have hinv : RegInv (applyAdds (initWith seed) ks) :=
    regInv_applyAdds _ _ (regInv_initWith seed)
  have hval := hinv.2
  rw [ht, List.length_append, hlen, List.range_add, List.map_append, List.map_append,
    List.map_map] at hval
  have hlen2 : ((initWith seed).map Prod.snd).length
      = ((List.range 3).map (fun i => rIdStr (i + 1))).length := by
    rw [List.length_map, List.length_map, List.length_range, hlen]
  have htv : t.map Prod.snd
      = (List.range t.length).map ((fun i => rIdStr (i + 1)) ∘ (fun i => 3 + i)) :=
    List.append_inj_right hval hlen2
  have hvmem : v ∈ t.map Prod.snd := List.mem_map_of_mem Prod.snd hmemt
  rw [htv] at hvmem
  obtain ⟨i, _, hi⟩ := List.mem_map.1 hvmem
  exact ⟨3 + i + 1, by omega, hi.symm⟩

/-! ### Metadata model and `update_doc_props` -/

/-- An XML element of a properties document: qualified tag, attributes, text. -/
structure Elem where
  tag : String
  attrs : List (String × String)
  text : Option String
deriving DecidableEq

/-- The metadata record `mi` (title, authors, tags, comments, languages,
publisher) handed over by the external metadata collaborator. -/
structure MI where
  title : String
  authors : List String
  tags : List String
  comments : Option String
  languages : List String
  publisher : Option String
deriving DecidableEq

/-- Modelled from the spec: the external collaborator functions imported by
the module but outside `src/` — author display-string formatting
(`authors_to_string`), language canonicalization (`canonicalize_lang`,
`lang_as_iso639_1`) and the fixed application name and numeric version. -/
structure Externals where
  authors_to_string : List String → String
  canonicalize_lang : String → String
  lang_as_iso639_1 : String → Option String
  appname : String
  version : Nat × Nat

/-- Python truthiness of an optional string (`None` and `''` are falsy). -/
def truthy : Option String → Bool
  | none => false
  | some s => s ≠ ""

/-- Python `a or b` for an optional string falling back to a string. -/
def pyOr (o : Option String) (b : String) : String :=
  match o with
  | some s => if s = "" then b else s
  | none => b

/-- The helper `setm` of `update_doc_props`: remove every child whose tag
equals the new qualified tag, then append the new element. -/
def setm (root : List Elem) (ns name : String) (text : Option String) : List Elem :=
  root.filter (fun c => !(c.tag == qn ns name)) ++ [⟨qn ns name, [], text⟩]

/-- `update_doc_props(root, mi)`. -/
def update_doc_props (ext : Externals) (root : List Elem) (mi : MI) : List Elem :=
  let r := setm root "dc" "title" (some mi.title)
  let r := setm r "dc" "creator" (some (ext.authors_to_string mi.authors))
  let r := if mi.tags ≠ [] then
      setm r "cp" "keywords" (some (String.intercalate ", " mi.tags))
    else r
  let r := if truthy mi.comments then
      setm r "dc" "description" mi.comments
    else r
  if mi.languages ≠ [] then
    let l := ext.canonicalize_lang (mi.languages.headD "")
    setm r "dc" "language" (some (pyOr (ext.lang_as_iso639_1 l) l))
  else r

/-- The children of `root` carrying the qualified tag `t`. -/
def tagElems (t : String) (root : List Elem) : List Elem :=
  root.filter (fun c => c.tag == t)

theorem tagElems_append (t : String) (a b : List Elem) :
    tagElems t (a ++ b) = tagElems t a ++ tagElems t b :=
  List.filter_append _ _

/-- After `setm`, exactly one element with the written tag remains, holding
the new text. -/
theorem tagElems_setm_self (root : List Elem) (ns name : String) (text : Option String) :
    tagElems (qn ns name) (setm root ns name text) = [⟨qn ns name, [], text⟩] := by
  unfold setm
  rw [tagElems_append]
  have h1 : tagElems (qn ns name) (root.filter (fun c => !(c.tag == qn ns name))) = [] := by
    unfold tagElems
    rw [List.filter_filter]
    apply List.filter_eq_nil_iff.2
    intro a _
    cases h : a.tag == qn ns name <;> simp [h]
  rw [h1]
  unfold tagElems
  simp

/-- `setm` with a different qualified tag leaves the elements of tag `t`
untouched. -/
theorem tagElems_setm_other (root : List Elem) (ns name : String) (text : Option String)
    (t : String) (h : qn ns name ≠ t) :
    tagElems t (setm root ns name text) = tagElems t root := by
  unfold setm
  rw [tagElems_append]
  have h2 : tagElems t [⟨qn ns name, [], text⟩] = [] := by
    unfold tagElems
    simp [h]
  rw [h2, List.append_nil]
  unfold tagElems
  rw [List.filter_filter]
  apply List.filter_congr
  intro a _
  by_cases ha : a.tag = t
  · simp [ha, Ne.symm h]
  · simp [ha]

/-- The title elements after `update_doc_props` are exactly one element
holding the record's title, whatever was in the document before. -/
theorem update_doc_props_title (ext : Externals) (root : List Elem) (mi : MI) :
    tagElems (qn "dc" "title") (update_doc_props ext root mi)
      = [⟨qn "dc" "title", [], some mi.title⟩] := by
  have hc : ∀ (r : List Elem) (text : Option String),
      tagElems (qn "dc" "title") (setm r "dc" "creator" text)
        = tagElems (qn "dc" "title") r :=
    fun r text => tagElems_setm_other r _ _ text _ (by decide)
  have hk : ∀ (r : List Elem) (text : Option String),
      tagElems (qn "dc" "title") (setm r "cp" "keywords" text)
        = tagElems (qn "dc" "title") r :=
    fun r text => tagElems_setm_other r _ _ text _ (by decide)
  have hd : ∀ (r : List Elem) (text : Option String),
      tagElems (qn "dc" "title") (setm r "dc" "description" text)
        = tagElems (qn "dc" "title") r :=
    fun r text => tagElems_setm_other r _ _ text _ (by decide)
  have hl : ∀ (r : List Elem) (text : Option String),
      tagElems (qn "dc" "title") (setm r "dc" "language" text)
        = tagElems (qn "dc" "title") r :=
    fun r text => tagElems_setm_other r _ _ text _ (by decide)
  unfold update_doc_props
  simp only [apply_ite (tagElems (qn "dc" "title")), hc, hk, hd, hl, ite_self]
  exact tagElems_setm_self root "dc" "title" (some mi.title)

/-- C2.  Updating the core-properties document twice with records carrying
different titles leaves exactly one title element, holding the second title;
in general `setm` removes every element of the written qualified name before
appending, so at most one element per written name remains. -/
theorem update_doc_props_replace_not_append (ext : Externals) (root : List Elem)
    (mi1 mi2 : MI) (hne : mi1.title ≠ mi2.title) :
    tagElems (qn "dc" "title")
        (update_doc_props ext (update_doc_props ext root mi1) mi2)
      = [⟨qn "dc" "title", [], some mi2.title⟩]
    ∧ ∀ (r : List Elem) (ns name : String) (text : Option String),
        tagElems (qn ns name) (setm r ns name text) = [⟨qn ns name, [], text⟩] :=
  ⟨update_doc_props_title ext (update_doc_props ext root mi1) mi2,
   fun r ns name text => tagElems_setm_self r ns name text⟩

/-- Witness for C2 with two concrete records with different titles. -/
theorem update_doc_props_replace_not_append_witness :
    tagElems (qn "dc" "title")
        (update_doc_props ⟨fun l => String.intercalate " & " l, id, fun _ => none,
            "calibre", (0, 9)⟩
          (update_doc_props ⟨fun l => String.intercalate " & " l, id, fun _ => none,
              "calibre", (0, 9)⟩
            [] ⟨"First", ["A. Author"], [], none, ["en"], none⟩)
          ⟨"Second", ["A. Author"], [], none, ["en"], none⟩)
      = [⟨qn "dc" "title", [], some "Second"⟩]
    ∧ ∀ (r : List Elem) (ns name : String) (text : Option String),
        tagElems (qn ns name) (setm r ns name text) = [⟨qn ns name, [], text⟩] :=
  update_doc_props_replace_not_append
    ⟨fun l => String.intercalate " & " l, id, fun _ => none, "calibre", (0, 9)⟩
    [] ⟨"First", ["A. Author"], [], none, ["en"], none⟩
    ⟨"Second", ["A. Author"], [], none, ["en"], none⟩ (by decide)

/-! ### `DOCX.contenttypes` -/

/-- A declaration of the content-type manifest. -/
inductive CTEntry where
  | Override (partName contentType : String)
  | Default (extension contentType : String)
deriving DecidableEq

/-- The fixed part-path → MIME-type dict of `DOCX.contenttypes`, in source
order (its Python 2 enumeration order differs, but only membership matters
to the claims). -/
def fixedOverrides : List (String × String) :=
  [("/word/footnotes.xml",
    "application/vnd.openxmlformats-officedocument.wordprocessingml.footnotes+xml"),
   ("/word/document.xml",
    "application/vnd.openxmlformats-officedocument.wordprocessingml.document.main+xml"),
   ("/word/numbering.xml",
    "application/vnd.openxmlformats-officedocument.wordprocessingml.numbering+xml"),
   ("/word/styles.xml",
    "application/vnd.openxmlformats-officedocument.wordprocessingml.styles+xml"),
   ("/word/endnotes.xml",
    "application/vnd.openxmlformats-officedocument.wordprocessingml.endnotes+xml"),
   ("/word/settings.xml",
    "application/vnd.openxmlformats-officedocument.wordprocessingml.settings+xml"),
   ("/word/theme/theme1.xml",
    "application/vnd.openxmlformats-officedocument.theme+xml"),
   ("/word/fontTable.xml",
    "application/vnd.openxmlformats-officedocument.wordprocessingml.fontTable+xml"),
   ("/word/webSettings.xml",
    "application/vnd.openxmlformats-officedocument.wordprocessingml.webSettings+xml"),
   ("/docProps/core.xml",
    "application/vnd.openxmlformats-package.core-properties+xml"),
   ("/docProps/app.xml",
    "application/vnd.openxmlformats-officedocument.extended-properties+xml")]

/-- The set literal `added = \x7b'png', 'gif', 'jpeg', 'jpg', 'svg', 'xml'\x7d`
in source order (a Python set enumerates in hash order; the proved properties
are order-invariant). -/
def imageDefaultExts : List String := ["png", "gif", "jpeg", "jpg", "svg", "xml"]

/-- The hardcoded extension → MIME-type dict for `rels` and `odttf`. -/
def extraDefaults : List (String × String) :=
  [("rels", "application/vnd.openxmlformats-package.relationships+xml"),
   ("odttf", "application/vnd.openxmlformats-officedocument.obfuscatedFont")]

/-- `added` right before the image loop: the six image defaults plus `rels`
and `odttf`. -/
def fixedDefaultExtList : List String := imageDefaultExts ++ ["rels", "odttf"]

/-- `fname.rpartition(os.extsep)[-1]`: the segment after the last `.`, or
the whole name when it has none. -/
def lastExt (fname : String) : String := (fname.splitOn ".").getLastD fname

/-- The first Default loop: `guess_type('a.'+ext)[0]` is attached as the
`ContentType` attribute unconditionally; a `None` value makes lxml raise
(modelled as `none`). -/
def buildDefaults (g : String → Option String) : List String → Option (List CTEntry)
  | [] => some []
  | e :: rest =>
    match g e, buildDefaults g rest with
    | some mt, some l => some (CTEntry.Default e mt :: l)
    | _, _ => none

/-- One iteration of the image-extension loop: skip seen extensions, mark the
extension as seen, then emit a Default only when the MIME lookup yields a
truthy value. -/
def imgStep (g : String → Option String) (acc : List CTEntry × List String)
    (fname : String) : List CTEntry × List String :=
  let ext := lastExt fname
  if ext ∈ acc.2 then acc
  else
    match g ext with
    | some mt =>
        if mt = "" then (acc.1, ext :: acc.2)
        else (acc.1 ++ [CTEntry.Default ext mt], ext :: acc.2)
    | none => (acc.1, ext :: acc.2)

/-- `DOCX.contenttypes` as the list of emitted manifest entries, `none` when
the unconditional first Default loop hits an undetermined MIME type.
`g` is the external `calibre.guess_type` collaborator, applied to the
extension (the code passes `'a.' + ext`). -/
def contenttypes (g : String → Option String) (images : List String) :
    Option (List CTEntry) :=
  match buildDefaults g imageDefaultExts with
  | none => none
  | some sixDefs =>
    let overrides := fixedOverrides.map (fun p => CTEntry.Override p.1 p.2)
    let extras := extraDefaults.map (fun p => CTEntry.Default p.1 p.2)
    let r := images.foldl (imgStep g) ([], fixedDefaultExtList)
    some (overrides ++ sixDefs ++ extras ++ r.1)

/-- The extensions of the Default entries of a manifest. -/
def extsOf (m : List CTEntry) : List String :=
  m.filterMap (fun e => match e with
    | CTEntry.Default ext _ => some ext
    | CTEntry.Override _ _ => none)

theorem extsOf_append (a b : List CTEntry) : extsOf (a ++ b) = extsOf a ++ extsOf b :=
  List.filterMap_append _ _ _

theorem buildDefaults_spec (g : String → Option String) :
    ∀ l : List String, (∀ e ∈ l, g e ≠ none) →
    ∃ ds, buildDefaults g l = some ds ∧ extsOf ds = l
      ∧ (∀ e mt, CTEntry.Default e mt ∈ ds → g e = some mt) := by
  intro l
  induction l with
  | nil => intro _; exact ⟨[], rfl, rfl, by simp⟩
  | cons e rest ih =>
    intro hg
    obtain ⟨mt, hmt⟩ := Option.ne_none_iff_exists'.1 (hg e (List.mem_cons_self _ _))
    obtain ⟨ds, hds, hexts, hmem⟩ := ih (fun x hx => hg x (List.mem_cons_of_mem _ hx))
    refine ⟨CTEntry.Default e mt :: ds, ?_, ?_, ?_⟩
    · show (match g e, buildDefaults g rest with
        | some mt, some l => some (CTEntry.Default e mt :: l)
        | _, _ => none) = _
      rw [hmt, hds]
    · show extsOf (CTEntry.Default e mt :: ds) = e :: rest
      unfold extsOf at *
      simp [hexts]
    · intro e' mt' hm
      rcases List.mem_cons.1 hm with h | h
      · cases h
        exact hmt
      · exact hmem e' mt' h

theorem imgFold_inv (g : String → Option String) :
    ∀ (imgs : List String) (out : List CTEntry) (added : List String),
    (extsOf out).Nodup → (∀ e ∈ extsOf out, e ∈ added) →
    (extsOf (imgs.foldl (imgStep g) (out, added)).1).Nodup
    ∧ (∀ e ∈ extsOf (imgs.foldl (imgStep g) (out, added)).1,
        e ∈ extsOf out ∨ e ∉ added)
    ∧ (∀ ext mt, CTEntry.Default ext mt ∈ (imgs.foldl (imgStep g) (out, added)).1 →
        CTEntry.Default ext mt ∈ out ∨ (g ext = some mt ∧ mt ≠ "")) := by
  intro imgs
  induction imgs with
  | nil =>
    intro out added hnd hsub
    exact ⟨hnd, fun e he => Or.inl he, fun ext mt hm => Or.inl hm⟩
  | cons f rest ih =>
    intro out added hnd hsub
    rw [List.foldl_cons]
    by_cases hmem : lastExt f ∈ added
    · have hstep : imgStep g (out, added) f = (out, added) := by
        unfold imgStep
        simp [hmem]
      rw [hstep]
      exact ih out added hnd hsub
    · have hsub' : ∀ e ∈ extsOf out, e ∈ lastExt f :: added :=
        fun e he => List.mem_cons_of_mem _ (hsub e he)
      have hnotin : lastExt f ∉ extsOf out := fun hc => hmem (hsub _ hc)
      cases hg : g (lastExt f) with
      | none =>
        have hstep : imgStep g (out, added) f = (out, lastExt f :: added) := by
          unfold imgStep
          simp [hmem, hg]
        rw [hstep]
        obtain ⟨h1, h2, h3⟩ := ih out (lastExt f :: added) hnd hsub'
        exact ⟨h1, fun e he => (h2 e he).imp id
          (fun hn hc => hn (List.mem_cons_of_mem _ hc)), h3⟩
      | some mt =>
        by_cases hemp : mt = ""
        · have hstep : imgStep g (out, added) f = (out, lastExt f :: added) := by
            unfold imgStep
            simp [hmem, hg, hemp]
          rw [hstep]
          obtain ⟨h1, h2, h3⟩ := ih out (lastExt f :: added) hnd hsub'
          exact ⟨h1, fun e he => (h2 e he).imp id
            (fun hn hc => hn (List.mem_cons_of_mem _ hc)), h3⟩
        · have hstep : imgStep g (out, added) f
              = (out ++ [CTEntry.Default (lastExt f) mt], lastExt f :: added) := by
            unfold imgStep
            simp [hmem, hg, hemp]
          rw [hstep]
          have hnd' : (extsOf (out ++ [CTEntry.Default (lastExt f) mt])).Nodup := by
            rw [extsOf_append]
            refine List.Nodup.append hnd (by simp [extsOf]) ?_
            intro a ha hb
            have : a = lastExt f := by
              simpa [extsOf] using hb
            exact hnotin (this ▸ ha)
          have hsub'' : ∀ e ∈ extsOf (out ++ [CTEntry.Default (lastExt f) mt]),
              e ∈ lastExt f :: added := by
            intro e he
            rw [extsOf_append] at he
            rcases List.mem_append.1 he with h | h
            · exact List.mem_cons_of_mem _ (hsub e h)
            · have : e = lastExt f := by simpa [extsOf] using h
              exact this ▸ List.mem_cons_self _ _
          obtain ⟨h1, h2, h3⟩ := ih (out ++ [CTEntry.Default (lastExt f) mt])
            (lastExt f :: added) hnd' hsub''
          refine ⟨h1, ?_, ?_⟩
          · intro e he
            rcases h2 e he with h | h
            · rw [extsOf_append] at h
              rcases List.mem_append.1 h with h' | h'
              · exact Or.inl h'
              · have : e = lastExt f := by simpa [extsOf] using h'
                exact Or.inr (this ▸ hmem)
            · exact Or.inr (fun hc => h (List.mem_cons_of_mem _ hc))
          · intro ext mt' hm
            rcases h3 ext mt' hm with h | h
            · rcases List.mem_append.1 h with h' | h'
              · exact Or.inl h'
              · have : CTEntry.Default ext mt' = CTEntry.Default (lastExt f) mt := by
                  simpa using h'
                cases this
                exact Or.inr ⟨hg, hemp⟩
            · exact Or.inr h

/-- C3.  For every MIME lookup resolving the six fixed image extensions and
every list of embedded resource names — names without an extension separator
included — `contenttypes` succeeds and its manifest lists at most one
`Default` element per distinct extension. -/
theorem contenttypes_no_duplicate_extensions (g : String → Option String)
    (images : List String) (hg : ∀ e ∈ imageDefaultExts, g e ≠ none) :
    ∃ m, contenttypes g images = some m ∧ (extsOf m).Nodup := by
  obtain ⟨ds, hds, hexts, _⟩ := buildDefaults_spec g imageDefaultExts hg
  obtain ⟨h1, h2, _⟩ := imgFold_inv g images [] fixedDefaultExtList (by simp [extsOf])
    (by simp [extsOf])
  refine ⟨_, by unfold contenttypes; rw [hds], ?_⟩
  rw [extsOf_append, extsOf_append, extsOf_append, hexts]
  have hov : extsOf (fixedOverrides.map (fun p => CTEntry.Override p.1 p.2)) = [] := by
    decide
  have hex : extsOf (extraDefaults.map (fun p => CTEntry.Default p.1 p.2))
      = ["rels", "odttf"] := by decide
  rw [hov, hex, List.nil_append]
  apply List.Nodup.append
  · decide
  · exact h1
  · intro a ha hb
    rcases h2 a hb with h | h
    · simp [extsOf] at h
    · exact h (by simpa [fixedDefaultExtList] using ha)

/-- A concrete MIME lookup, standing in for the external `guess_type`
collaborator in witnesses: the standard `mimetypes` values for the relevant
extensions, undetermined otherwise. -/
def guessTypeStd (e : String) : Option String :=
  (([("png", "image/png"), ("gif", "image/gif"), ("jpeg", "image/jpeg"),
     ("jpg", "image/jpeg"), ("svg", "image/svg+xml"),
     ("xml", "application/xml")].find? (fun p => p.1 == e))).map Prod.snd

/-- Witness for C3: an image list with a duplicated extension and a name with
no extension separator. -/
theorem contenttypes_no_duplicate_extensions_witness :
    ∃ m, contenttypes guessTypeStd
        ["README", "word/media/image1.png", "word/media/image2.png"] = some m
      ∧ (extsOf m).Nodup :=
  contenttypes_no_duplicate_extensions guessTypeStd
    ["README", "word/media/image1.png", "word/media/image2.png"] (by decide)

/-- C6.  Whenever the MIME lookup resolves the six fixed image extensions to
truthy values, the manifest never carries a `Default` with an empty
`ContentType`, and an observed extension outside the fixed default set whose
MIME type cannot be determined is silently skipped (no error, no element). -/
theorem contenttypes_skips_unresolved (g : String → Option String)
    (images : List String)
    (hg : ∀ e ∈ imageDefaultExts, g e ≠ none ∧ g e ≠ some "") :
    ∃ m, contenttypes g images = some m
      ∧ (∀ ext mt, CTEntry.Default ext mt ∈ m → mt ≠ "")
      ∧ (∀ ext, g ext = none → ext ∉ fixedDefaultExtList →
          ∀ mt, CTEntry.Default ext mt ∉ m) := by
  obtain ⟨ds, hds, hexts, hmem⟩ := buildDefaults_spec g imageDefaultExts
    (fun e he => (hg e he).1)
  obtain ⟨_, _, h3⟩ := imgFold_inv g images [] fixedDefaultExtList (by simp [extsOf])
    (by simp [extsOf])
  refine ⟨_, by unfold contenttypes; rw [hds], ?_, ?_⟩
  · intro ext mt hm
    rcases List.mem_append.1 hm with hm' | himg
    · rcases List.mem_append.1 hm' with hm'' | hextra
      · rcases List.mem_append.1 hm'' with hov | hds'
        · simp [fixedOverrides] at hov
        · have hgm := hmem ext mt hds'
          have hin : ext ∈ extsOf ds := by
            unfold extsOf
            exact List.mem_filterMap.2 ⟨CTEntry.Default ext mt, hds', rfl⟩
          rw [hexts] at hin
          intro hc
          exact (hg ext hin).2 (hc ▸ hgm)
      · simp only [extraDefaults, List.map_cons, List.map_nil, List.mem_cons,
          List.not_mem_nil, or_false, CTEntry.Default.injEq] at hextra
        rcases hextra with ⟨h1, h2⟩ | ⟨h1, h2⟩ <;> subst h2 <;> decide
    · rcases h3 ext mt himg with h | h
      · simp at h
      · exact h.2
  · intro ext hnone hnotfixed mt hm
    rcases List.mem_append.1 hm with hm' | himg
    · rcases List.mem_append.1 hm' with hm'' | hextra
      · rcases List.mem_append.1 hm'' with hov | hds'
        · simp [fixedOverrides] at hov
        · have hin : ext ∈ extsOf ds :=
            List.mem_filterMap.2 ⟨CTEntry.Default ext mt, hds', rfl⟩
          rw [hexts] at hin
          exact hnotfixed (by simp [fixedDefaultExtList, hin])
      · simp only [extraDefaults, List.map_cons, List.map_nil, List.mem_cons,
          List.not_mem_nil, or_false, CTEntry.Default.injEq] at hextra
        rcases hextra with ⟨h1, _⟩ | ⟨h1, _⟩ <;> subst h1 <;>
          exact hnotfixed (by decide)
    · rcases h3 ext mt himg with h | h
      · simp at h
      · rw [hnone] at h
        exact Option.noConfusion h.1

/-- Witness for C6: `README` has no extension separator, its "extension" has
no MIME type, and it is skipped without error. -/
theorem contenttypes_skips_unresolved_witness :
    ∃ m, contenttypes guessTypeStd ["README", "word/media/image1.png"] = some m
      ∧ (∀ ext mt, CTEntry.Default ext mt ∈ m → mt ≠ "")
      ∧ (∀ ext, guessTypeStd ext = none → ext ∉ fixedDefaultExtList →
          ∀ mt, CTEntry.Default ext mt ∉ m) :=
  contenttypes_skips_unresolved guessTypeStd ["README", "word/media/image1.png"]
    (by decide)

/-! ### Timestamps, `convert_metadata`, `appproperties` and `write` -/

/-- Modelled from the spec and the CPython standard library: the value of
`calibre.utils.date.utcnow()`, a timezone-aware UTC `datetime`. -/
structure PyDatetime where
  year : Nat
  month : Nat
  day : Nat
  hour : Nat
  minute : Nat
  second : Nat
  microsecond : Nat
deriving DecidableEq

/-- Zero-padded decimal rendering, as `'%0wd' % n` for nonnegative `n`. -/
def pad (w n : Nat) : String :=
  String.mk (List.replicate (w - (Nat.repr n).length) '0') ++ Nat.repr n

/-- Modelled from the CPython standard library: `datetime.isoformat('T')` for
an aware UTC value — the microsecond field is omitted entirely when zero, and
the `+00:00` offset is appended. -/
def isoformatUTC (t : PyDatetime) : String :=
  pad 4 t.year ++ "-" ++ pad 2 t.month ++ "-" ++ pad 2 t.day ++ "T"
    ++ pad 2 t.hour ++ ":" ++ pad 2 t.minute ++ ":" ++ pad 2 t.second
    ++ (if t.microsecond = 0 then "" else "." ++ pad 6 t.microsecond)
    ++ "+00:00"

/-- `s.rpartition('.')[0]`: everything before the last `.`, or the empty
string when `s` has no `.` at all (drop, from the right, up to and including
the last dot). -/
def rpartBeforeDot (s : String) : String :=
  String.mk (((s.data.reverse.dropWhile (fun c => c ≠ '.')).drop 1).reverse)

/-- The timestamp expression of `convert_metadata`:
`utcnow().isoformat('T').rpartition('.')[0] + 'Z'`. -/
def mkTs (now : PyDatetime) : String := rpartBeforeDot (isoformatUTC now) ++ "Z"

/-- Modelled from the spec: the oeb object handed to `convert_metadata`
carries the metadata record; the `to_opf2`/`ReadOPF` round-trip through the
external OPF machinery reproduces the record. -/
structure OEB where
  mi : MI

/-- The `DOCX` assembler state: one built-in relationship registry, the font
table and embedded-font relationship parts, the font and image stores (image
data as lazy accessors), the body parts handed over by collaborators, and the
`mi` attribute that only `convert_metadata` assigns. -/
structure DOCX where
  document_relationships : Registry
  font_table : String
  embedded_fonts : List RelElem
  fonts : List (String × String)
  images : List (String × (Unit → String))
  document : String
  styles : String
  mi : Option MI

/-- `DOCX.__init__`: fresh registry seeded with the three built-ins (dict
enumeration order caveat as in `builtinPairs`), empty font table and stores.
`document`, `styles` and `images` are attached later by the conversion
pipeline (empty placeholders here); `mi` is absent until `convert_metadata`
runs. -/
def DOCX.init : DOCX :=
  { document_relationships := initWith builtinPairs
    font_table := ""
    embedded_fonts := []
    fonts := []
    images := []
    document := ""
    styles := ""
    mi := none }

/-- `DOCX.convert_metadata`: builds the core-properties document and sets
`self.mi`; returns the document and the updated assembler state. -/
def convert_metadata (ext : Externals) (now : PyDatetime) (d : DOCX) (oeb : OEB) :
    List Elem × DOCX :=
  let ts := mkTs now
  let cp : List Elem :=
    [⟨qn "cp" "revision", [], some "1"⟩,
     ⟨qn "cp" "lastModifiedBy", [], some "calibre"⟩,
     ⟨qn "dcterms" "created", [(qn "xsi" "type", "dcterms:W3CDTF")], some ts⟩,
     ⟨qn "dcterms" "modified", [(qn "xsi" "type", "dcterms:W3CDTF")], some ts⟩]
  (update_doc_props ext cp oeb.mi, { d with mi := some oeb.mi })

/-- `DOCX.appproperties`: reads `self.mi`, which only `convert_metadata`
assigns; on a fresh assembler the attribute is missing (modelled as `none`). -/
def appproperties (ext : Externals) (d : DOCX) : Option (List Elem) :=
  match d.mi with
  | none => none
  | some mi =>
    some ([⟨qn "ep" "Application", [], some ext.appname⟩,
           ⟨qn "ep" "AppVersion", [],
             some (pad 2 ext.version.1 ++ "." ++ pad 4 ext.version.2)⟩,
           ⟨qn "ep" "DocSecurity", [], some "0"⟩,
           ⟨qn "ep" "HyperlinksChanged", [], some "false"⟩,
           ⟨qn "ep" "LinksUpToDate", [], some "true"⟩,
           ⟨qn "ep" "ScaleCrop", [], some "false"⟩,
           ⟨qn "ep" "SharedDoc", [], some "false"⟩]
      ++ match mi.publisher with
         | some p => if p = "" then [] else [⟨qn "ep" "Company", [], some p⟩]
         | none => [])

/-- `DOCX.websettings` children. -/
def websettings : List Elem :=
  [⟨qn "w" "optimizeForBrowser", [], none⟩,
   ⟨qn "w" "allowPNG", [], none⟩,
   ⟨qn "w" "doNotSaveAsSingleFile", [], none⟩]

/-- `DOCX.containerrels`: the static top-level relationships document. -/
def containerrels : String :=
  "<?xml version='1.0' encoding='utf-8'?>\n<Relationships xmlns=\"http://schemas.openxmlformats.org/package/2006/relationships\">\n    <Relationship Id=\"rId3\" Type=\"http://schemas.openxmlformats.org/officeDocument/2006/relationships/extended-properties\" Target=\"docProps/app.xml\"/>\n    <Relationship Id=\"rId2\" Type=\"http://schemas.openxmlformats.org/package/2006/relationships/metadata/core-properties\" Target=\"docProps/core.xml\"/>\n    <Relationship Id=\"rId1\" Type=\"http://schemas.openxmlformats.org/officeDocument/2006/relationships/officeDocument\" Target=\"word/document.xml\"/>\n</Relationships>"

/-- The payload of one archive entry. -/
inductive Part where
  | xmlCT (m : List CTEntry)
  | xmlProps (es : List Elem)
  | xmlRels (rs : List RelElem)
  | raw (s : String)
  | blob (b : String)

/-- The ten fixed entry names of `DOCX.write`, in write order. -/
def docxFixedNames : List String :=
  ["[Content_Types].xml", "_rels/.rels", "docProps/core.xml", "docProps/app.xml",
   "word/webSettings.xml", "word/document.xml", "word/styles.xml",
   "word/fontTable.xml", "word/_rels/document.xml.rels",
   "word/_rels/fontTable.xml.rels"]

/-- `DOCX.write`: the archive entries in write order, paired with the trace
of image names whose lazy byte-accessors are invoked (each exactly once, at
write time, by evaluating `data_getter()`). -/
def write (ext : Externals) (g : String → Option String) (now : PyDatetime)
    (d : DOCX) (oeb : OEB) : Option (List (String × Part) × List String) :=
  match contenttypes g (d.images.map Prod.fst) with
  | none => none
  | some ct =>
    let core := convert_metadata ext now d oeb
    match appproperties ext core.2 with
    | none => none
    | some app =>
      some ([("[Content_Types].xml", Part.xmlCT ct),
             ("_rels/.rels", Part.raw containerrels),
             ("docProps/core.xml", Part.xmlProps core.1),
             ("docProps/app.xml", Part.xmlProps app),
             ("word/webSettings.xml", Part.xmlProps websettings),
             ("word/document.xml", Part.raw d.document),
             ("word/styles.xml", Part.raw d.styles),
             ("word/fontTable.xml", Part.raw d.font_table),
             ("word/_rels/document.xml.rels",
               Part.xmlRels (serialize d.document_relationships)),
             ("word/_rels/fontTable.xml.rels", Part.xmlRels d.embedded_fonts)]
        ++ d.images.map (fun p => (p.1, Part.blob (p.2 ())))
        ++ d.fonts.map (fun p => (p.1, Part.blob p.2)),
        d.images.map Prod.fst)

/-- Elements whose text is a boolean literal. -/
def boolFlagCount (es : List Elem) : Nat :=
  es.countP (fun e => e.text == some "true" || e.text == some "false")

/-- Concrete externals used by witnesses: fixed application constants and
simple collaborator stand-ins. -/
def extC : Externals :=
  ⟨fun l => String.intercalate " & " l, id, fun _ => none, "calibre", (0, 9)⟩

/-- A concrete metadata record (title-only scenario of the spec). -/
def miC : MI := ⟨"Sample", ["A. Author"], [], none, ["en"], none⟩

theorem contenttypes_exists (g : String → Option String) (images : List String)
    (hg : ∀ e ∈ imageDefaultExts, g e ≠ none) :
    ∃ m, contenttypes g images = some m := by
  obtain ⟨ds, hds, _, _⟩ := buildDefaults_spec g imageDefaultExts hg
  exact ⟨_, by unfold contenttypes; rw [hds]⟩

/-- A concrete assembler state with one embedded image (lazy accessor) and
one embedded font, used by witnesses. -/
def dC : DOCX :=
  { DOCX.init with
    images := [("word/media/image1.png", fun _ => "PNGDATA")]
    fonts := [("word/fonts/font1.odttf", "FONTDATA")] }

/-- A concrete assembler state whose `mi` is already set. -/
def dCmi : DOCX := { DOCX.init with mi := some miC }

/-- A concrete record with a publisher, and a state carrying it. -/
def miPub : MI := ⟨"Sample", ["A. Author"], [], none, ["en"], some "PubCo"⟩

/-- State carrying `miPub`. -/
def dPub : DOCX := { DOCX.init with mi := some miPub }

/-- C5 (code bug).  The timestamp `convert_metadata` writes into the
`dcterms:created` and `dcterms:modified` elements is
`utcnow().isoformat('T').rpartition('.')[0] + 'Z'`; at an instant whose
microsecond field is zero, `isoformat` emits no `.`, `rpartition` returns an
empty prefix, and the stored text degenerates to the bare string `"Z"`
instead of the second-precision UTC instant the spec requires; with a
nonzero microsecond field the intended form is produced. -/
theorem convert_metadata_timestamp_bug :
    tagElems (qn "dcterms" "created")
        (convert_metadata extC ⟨2013, 1, 1, 12, 0, 0, 0⟩ DOCX.init ⟨miC⟩).1
      = [⟨qn "dcterms" "created", [(qn "xsi" "type", "dcterms:W3CDTF")], some "Z"⟩]
    ∧ mkTs ⟨2013, 1, 1, 12, 0, 0, 0⟩ = "Z"
    ∧ mkTs ⟨2013, 1, 1, 12, 0, 0, 0⟩ ≠ "2013-01-01T12:00:00Z"
    ∧ mkTs ⟨2013, 1, 1, 12, 0, 0, 123456⟩ = "2013-01-01T12:00:00Z" := by decide

/-- C9 (counterexample).  At a concrete metadata record the app-properties
document carries four boolean flag elements, not two as claimed. -/
theorem appproperties_flag_count_counterexample :
    (appproperties extC dCmi).map boolFlagCount = some 4
    ∧ (appproperties extC dCmi).map boolFlagCount ≠ some 2 := by decide

/-- C9 (amended).  For every metadata record, the app-properties document
holds the fixed application name and version, a `DocSecurity` element with
value "0", four boolean flag elements fixed to false, true, false and false
(`HyperlinksChanged`, `LinksUpToDate`, `ScaleCrop`, `SharedDoc`), and a
`Company` element holding the publisher exactly when the record's publisher
is present (truthy). -/
theorem appproperties_amended (ext : Externals) (d : DOCX) (mi : MI)
    (h : d.mi = some mi) :
    ∃ es, appproperties ext d = some es
      ∧ es.map (fun e => (e.tag, e.text)) =
          [(qn "ep" "Application", some ext.appname),
           (qn "ep" "AppVersion",
             some (pad 2 ext.version.1 ++ "." ++ pad 4 ext.version.2)),
           (qn "ep" "DocSecurity", some "0"),
           (qn "ep" "HyperlinksChanged", some "false"),
           (qn "ep" "LinksUpToDate", some "true"),
           (qn "ep" "ScaleCrop", some "false"),
           (qn "ep" "SharedDoc", some "false")]
          ++ (match mi.publisher with
              | some p => if p = "" then [] else [(qn "ep" "Company", some p)]
              | none => [])
      ∧ ((∃ e ∈ es, e.tag = qn "ep" "Company") ↔ truthy mi.publisher = true) := by
  unfold appproperties
  rw [h]
  refine ⟨_, rfl, ?_, ?_⟩
  · cases hp : mi.publisher with
    | none => simp
    | some p => by_cases hpe : p = "" <;> simp [hpe]
  · have t1 : qn "ep" "Application" ≠ qn "ep" "Company" := by decide
    have t2 : qn "ep" "AppVersion" ≠ qn "ep" "Company" := by decide
    have t3 : qn "ep" "DocSecurity" ≠ qn "ep" "Company" := by decide
    have t4 : qn "ep" "HyperlinksChanged" ≠ qn "ep" "Company" := by decide
    have t5 : qn "ep" "LinksUpToDate" ≠ qn "ep" "Company" := by decide
    have t6 : qn "ep" "ScaleCrop" ≠ qn "ep" "Company" := by decide
    have t7 : qn "ep" "SharedDoc" ≠ qn "ep" "Company" := by decide
    constructor
    · rintro ⟨e, he, htag⟩
      rcases List.mem_append.1 he with h7 | hc
      · simp only [List.mem_cons, List.not_mem_nil, or_false] at h7
        rcases h7 with rfl | rfl | rfl | rfl | rfl | rfl | rfl
        exacts [(t1 htag).elim, (t2 htag).elim, (t3 htag).elim, (t4 htag).elim,
          (t5 htag).elim, (t6 htag).elim, (t7 htag).elim]
      · cases hp : mi.publisher with
        | none => simp only [hp] at hc; simp at hc
        | some p =>
          simp only [hp] at hc
          by_cases hpe : p = ""
          · simp [hpe] at hc
          · simp [truthy, hp, hpe]
    · intro ht
      cases hp : mi.publisher with
      | none => rw [hp] at ht; simp [truthy] at ht
      | some p =>
        rw [hp] at ht
        have hpe : p ≠ "" := by simpa [truthy] using ht
        refine ⟨⟨qn "ep" "Company", [], some p⟩, List.mem_append.2 (Or.inr ?_), rfl⟩
        simp only [hp]
        rw [if_neg hpe]
        exact List.mem_cons_self _ _

/-- Witness for the amended C9 at a record with a publisher. -/
theorem appproperties_amended_witness :
    ∃ es, appproperties extC dPub = some es
      ∧ es.map (fun e => (e.tag, e.text)) =
          [(qn "ep" "Application", some extC.appname),
           (qn "ep" "AppVersion",
             some (pad 2 extC.version.1 ++ "." ++ pad 4 extC.version.2)),
           (qn "ep" "DocSecurity", some "0"),
           (qn "ep" "HyperlinksChanged", some "false"),
           (qn "ep" "LinksUpToDate", some "true"),
           (qn "ep" "ScaleCrop", some "false"),
           (qn "ep" "SharedDoc", some "false")]
          ++ (match miPub.publisher with
              | some p => if p = "" then [] else [(qn "ep" "Company", some p)]
              | none => [])
      ∧ ((∃ e ∈ es, e.tag = qn "ep" "Company") ↔ truthy miPub.publisher = true) :=
  appproperties_amended extC dPub miPub rfl

/-- C8.  `write` produces exactly the ten fixed entries in write order, then
one entry per embedded image at its registered path, then one per embedded
font, and the lazy image byte-accessors are invoked exactly once each, at
write time, in the enumeration order of the image store. -/
theorem write_entries (ext : Externals) (g : String → Option String)
    (now : PyDatetime) (d : DOCX) (oeb : OEB)
    (hg : ∀ e ∈ imageDefaultExts, g e ≠ none)
    (hnd : (d.images.map Prod.fst).Nodup) :
    ∃ es tr, write ext g now d oeb = some (es, tr)
      ∧ es.map Prod.fst
          = docxFixedNames ++ d.images.map Prod.fst ++ d.fonts.map Prod.fst
      ∧ tr = d.images.map Prod.fst
      ∧ (∀ n ∈ d.images.map Prod.fst, tr.count n = 1)
      ∧ (∀ p ∈ d.images, (p.1, Part.blob (p.2 ())) ∈ es) := by
  obtain ⟨ct, hct⟩ := contenttypes_exists g (d.images.map Prod.fst) hg
  unfold write
  rw [hct]
  refine ⟨_, _, rfl, ?_, rfl, ?_, ?_⟩
  · simp only [List.map_append, docxFixedNames, List.map_cons, List.map_nil,
      List.map_map]
    rfl
  · intro n hn
    exact List.count_eq_one_of_mem hnd hn
  · intro p hp
    exact List.mem_append.2 (Or.inl (List.mem_append.2 (Or.inr
      (List.mem_map_of_mem _ hp))))

/-- Witness for C8 at a concrete assembler with one image and one font. -/
theorem write_entries_witness :
    ∃ es tr, write extC guessTypeStd ⟨2013, 1, 1, 12, 0, 0, 123456⟩ dC ⟨miC⟩
        = some (es, tr)
      ∧ es.map Prod.fst
          = docxFixedNames ++ dC.images.map Prod.fst ++ dC.fonts.map Prod.fst
      ∧ tr = dC.images.map Prod.fst
      ∧ (∀ n ∈ dC.images.map Prod.fst, tr.count n = 1)
      ∧ (∀ p ∈ dC.images, (p.1, Part.blob (p.2 ())) ∈ es) :=
  write_entries extC guessTypeStd ⟨2013, 1, 1, 12, 0, 0, 123456⟩ dC ⟨miC⟩
    (by decide) (by decide)

/-- C10.  `appproperties` reads the `mi` attribute that only
`convert_metadata` assigns: on a fresh assembler it fails (`none`), while
`write` first produces `docProps/core.xml` through `convert_metadata` — which
sets `mi` — and only then reads `appproperties`, so `write` always succeeds
in reading it. -/
theorem appproperties_requires_convert_metadata (ext : Externals)
    (g : String → Option String) (now : PyDatetime) (d : DOCX) (oeb : OEB)
    (hg : ∀ e ∈ imageDefaultExts, g e ≠ none) :
    appproperties ext DOCX.init = none
    ∧ (convert_metadata ext now d oeb).2.mi = some oeb.mi
    ∧ appproperties ext (convert_metadata ext now d oeb).2 ≠ none
    ∧ (write ext g now d oeb).isSome = true := by
  refine ⟨rfl, rfl, ?_, ?_⟩
  · have hmi : (convert_metadata ext now d oeb).2.mi = some oeb.mi := rfl
    simp [appproperties, hmi]
  obtain ⟨ct, hct⟩ := contenttypes_exists g (d.images.map Prod.fst) hg
  unfold write
  rw [hct]
  rfl

/-- Witness for C10 at the concrete assembler. -/
theorem appproperties_requires_convert_metadata_witness :
    appproperties extC DOCX.init = none
    ∧ (convert_metadata extC ⟨2013, 1, 1, 12, 0, 0, 123456⟩ dC ⟨miC⟩).2.mi
        = some (OEB.mk miC).mi
    ∧ appproperties extC
        (convert_metadata extC ⟨2013, 1, 1, 12, 0, 0, 123456⟩ dC ⟨miC⟩).2 ≠ none
    ∧ (write extC guessTypeStd ⟨2013, 1, 1, 12, 0, 0, 123456⟩ dC ⟨miC⟩).isSome
        = true :=
  appproperties_requires_convert_metadata extC guessTypeStd
    ⟨2013, 1, 1, 12, 0, 0, 123456⟩ dC ⟨miC⟩ (by decide)

/-- Witness for C7: after the three seeded relationships, the first image
registered receives `rId4`. -/
theorem seeded_ordering_witness :
    (initWith builtinPairs).map Prod.snd = [rIdStr 1, rIdStr 2, rIdStr 3]
    ∧ ((initWith builtinPairs).map Prod.fst).Perm builtinKeys
    ∧ ∃ n, 4 ≤ n ∧ "rId4" = rIdStr n :=
  seeded_ordering builtinPairs (List.Perm.refl _) [("media/image1.png", IMAGES, none)]
    ("media/image1.png", IMAGES, none) "rId4" (by decide) (by decide)

end Docx
